import Mathlib

/-!
Verification of the aiatools expression algebra and selector engine.

This file gives a shallow embedding, in Lean 4, of the parts of the
`aiatools` Python package (modules `algebra.py`, `selectors.py`,
`attributes.py`, `common.py`) that the specification's claims are about,
and proves or refutes each claim against that embedding.

Conventions used throughout:
* Python `None` is `Option.none`; an attribute lookup that can fail
  returns an `Option`.
* Python dicts (which iterate in insertion order on every supported
  interpreter) are association lists `List (κ × α)`; assignment
  `d[k] = v` replaces the value in place when the key is present and
  appends otherwise, exactly like CPython.
* Python exceptions are modelled with `Except` or with explicit
  result constructors.
-/

namespace Aiatools

/-! ## Python value universe

A small universe of Python values, sufficient for the group-by keys and
operands that appear in the claims.  Truthiness follows Python:
`None` and `False`, zero and the empty string are falsy.
-/

/-- A Python scalar value: `None`, a bool, an int or a str. -/
inductive PyVal where
  | noneV : PyVal
  | boolV : Bool → PyVal
  | intV : Int → PyVal
  | strV : String → PyVal
  deriving DecidableEq, Repr

/-- Python truthiness of a `PyVal`. -/
def truthy : PyVal → Bool
  | .noneV => false
  | .boolV b => b
  | .intV n => n ≠ 0
  | .strV s => s ≠ ""

/-- Python `a and b` applied to two already-computed values:
returns `a` when `a` is falsy, otherwise `b` (no coercion). -/
def pyAnd (a b : PyVal) : PyVal := if truthy a then b else a

/-- Python `a or b` applied to two already-computed values:
returns `a` when `a` is truthy, otherwise `b` (no coercion). -/
def pyOr (a b : PyVal) : PyVal := if truthy a then a else b

/-! ## Boolean combinators (`algebra.py`, `AndExpression`/`OrExpression`)

`AndExpression.__call__` is

    left_val = self.left(operand) if isinstance(self.left, Expression) else self.left
    right_val = self.right(operand) if isinstance(self.right, Expression) else self.right
    return left_val and right_val

and `OrExpression.__call__` is the same with `or`.  Operands stored in a
`BinaryExpression` are either `Expression`s (callables having been
wrapped into `ComputedAttribute` by `BinaryExpression.__init__`) or raw
values.  To make "the right operand is evaluated" observable, each
`ComputedAttribute` leaf carries a label, and evaluation returns the
ordered list of labels of the leaves that were actually invoked.
-/

/-- Operand tree of an and/or expression: a raw (non-Expression) value,
a `ComputedAttribute` wrapping a function (tagged with a label so that
its invocation is observable), or a nested and/or. -/
inductive BExpr where
  | rawVal : PyVal → BExpr
  | fnAttr : Nat → (PyVal → PyVal) → BExpr
  | andE : BExpr → BExpr → BExpr
  | orE : BExpr → BExpr → BExpr

/-- Evaluation of an and/or operand tree against an operand value,
mirroring `AndExpression.__call__`/`OrExpression.__call__`: both sides
are computed first, then the host `and`/`or` combines the two values.
Returns the value together with the labels of the `ComputedAttribute`
leaves invoked, in invocation order. -/
def evalB : BExpr → PyVal → PyVal × List Nat
  | .rawVal v, _ => (v, [])
  | .fnAttr label f, x => (f x, [label])
  | .andE l r, x =>
      let lv := evalB l x
      let rv := evalB r x
      (pyAnd lv.1 rv.1, lv.2 ++ rv.2)
  | .orE l r, x =>
      let lv := evalB l x
      let rv := evalB r x
      (pyOr lv.1 rv.1, lv.2 ++ rv.2)

/-! ## `FunctionComposition` (`algebra.py`)

    def __init__(self, *args):
        self.functors = list(args) + [identity]

    def __call__(self, obj, *args, **kwargs):
        if needs_eval(obj):
            self.functors = [obj] + self.functors
            return self
        else:
            for op in self.functors:
                obj = op(obj)
            return obj

The mutable `functors` field is modelled by explicit state passing:
`fcCall` returns the state of the object *after* the call together with
the value returned when the operand was final.  Stages are identified
by labels; `interp` gives each label its function.
-/

/-- One stage of a `FunctionComposition` pipeline: the trailing
`identity`, or a functor identified by a label. -/
inductive Stage where
  | idS : Stage
  | fnS : Nat → Stage
  deriving DecidableEq, Repr

/-- The state of a `FunctionComposition` object: its `functors` list. -/
structure FunctionComposition where
  functors : List Stage
  deriving DecidableEq, Repr

/-- `FunctionComposition.__init__`: stores the given stages followed by
the terminating `identity`. -/
def fcInit (args : List Stage) : FunctionComposition :=
  ⟨args ++ [.idS]⟩

/-- An operand passed to a `FunctionComposition`: either a final value
(`needs_eval` false) or a deferred stage (`needs_eval` true). -/
inductive FCOperand where
  | finalVal : PyVal → FCOperand
  | deferred : Stage → FCOperand

/-- Applies the stages of a pipeline left to right to a value. -/
def applyStages (interp : Nat → PyVal → PyVal) : List Stage → PyVal → PyVal
  | [], v => v
  | .idS :: rest, v => applyStages interp rest v
  | .fnS label :: rest, v => applyStages interp rest (interp label v)

/-- `FunctionComposition.__call__`: on a deferred operand the object
prepends the operand to its own `functors` list and returns itself (the
first component is the object's state after the call, the second the
returned final value, if any); on a final value the object is left
unchanged and the value is threaded through the stages. -/
def fcCall (interp : Nat → PyVal → PyVal) (fc : FunctionComposition) :
    FCOperand → FunctionComposition × Option PyVal
  | .deferred s => (⟨s :: fc.functors⟩, none)
  | .finalVal v => (fc, some (applyStages interp fc.functors v))

/-! ## `NotExpression` (`algebra.py`)

`Expression.__invert__` returns `NotExpression(self)`;
`NotExpression.__init__` stores an `Expression` operand unchanged
(only bare callables get wrapped in `ComputedAttribute`); and
`NotExpression.__invert__` returns the stored `self.expr`.
-/

/-- An expression as seen by the `~` operator: either some expression
that is not a `NotExpression` (identified by a label), or a
`NotExpression` wrapping another expression. -/
inductive AlgExpr where
  | base : Nat → AlgExpr
  | notE : AlgExpr → AlgExpr
  deriving DecidableEq, Repr

/-- `NotExpression.__init__` applied to an operand that is already an
`Expression`: the operand is stored unchanged. -/
def mkNotFromExpr (e : AlgExpr) : AlgExpr := .notE e

/-- The `~` operator: `NotExpression.__invert__` returns the wrapped
expression, every other expression is wrapped in a new `NotExpression`. -/
def pyInvert : AlgExpr → AlgExpr
  | .notE e => e
  | .base n => .notE (.base n)

/-! ## Python dicts as association lists

CPython dicts preserve insertion order.  `d[k] = v` replaces the value
in place when the key is present and appends a new entry otherwise;
`k in d` and `d[k]` search by equality.
-/

/-- Python `k in d` for a dict `d`. -/
def containsKey [DecidableEq κ] (d : List (κ × α)) (k : κ) : Bool :=
  d.any (fun p => decide (p.1 = k))

/-- Python `d[k]` for a dict `d`, as an `Option`. -/
def dictFind [DecidableEq κ] : List (κ × α) → κ → Option α
  | [], _ => none
  | p :: rest, k => if p.1 = k then some p.2 else dictFind rest k

/-- Python `d[k] = v`: replace in place when the key is present,
append otherwise. -/
def dictAssign [DecidableEq κ] (d : List (κ × α)) (k : κ) (v : α) :
    List (κ × α) :=
  if containsKey d k then d.map (fun p => if p.1 = k then (p.1, v) else p)
  else d ++ [(k, v)]

/-! ## `Selector` (`selectors.py`)

A `Selector` wraps an identity-keyed collection `_collection`.

`Selector.__call__(expr)` iterates `self._collection.values()` and
builds a fresh dict `subset` with `subset[item.id] = item` for each
item accepted by the filter, returning `Selector(subset)`.

`Selector.__getitem__(item)`: an `int` index is normalised by adding
`len(self)` when negative and then walked linearly, raising
`IndexError` when the walk runs off the end; any other key is looked
up in `_collection`, with `KeyError` caught and an empty
`NamedCollection` returned instead.
-/

/-- `Selector.__call__`: filter the values into a fresh dict keyed by
each item's `id`. -/
def selectorCall [DecidableEq κ] (getId : α → κ) (c : List (κ × α))
    (f : α → Bool) : List (κ × α) :=
  c.foldl (fun acc p => if f p.2 then dictAssign acc (getId p.2) p.2 else acc) []

/-- Result of `Selector.__getitem__`: a value, an `IndexError`, or the
empty `NamedCollection` substituted for a `KeyError`. -/
inductive GetResult (κ α : Type u) where
  | found : α → GetResult κ α
  | indexError : Int → GetResult κ α
  | emptyCollection : GetResult κ α
  deriving DecidableEq

/-- The linear walk in `Selector.__getitem__` over the values: return
the value when the countdown reaches zero, `none` when the collection
is exhausted first (a negative countdown never reaches zero). -/
def walkValues : List α → Int → Option α
  | [], _ => none
  | v :: vs, i => if i = 0 then some v else walkValues vs (i - 1)

/-- `Selector.__getitem__` with an `int` index. -/
def selectorGetInt (c : List (κ × α)) (i : Int) : GetResult κ α :=
  match walkValues (c.map Prod.snd)
      (if i ≥ 0 then i else i + c.length) with
  | some v => .found v
  | none => .indexError i

/-- `Selector.__getitem__` with a non-int key: dict lookup with
`KeyError` replaced by an empty `NamedCollection`. -/
def selectorGetKey [DecidableEq κ] (c : List (κ × α)) (k : κ) :
    GetResult κ α :=
  match dictFind c k with
  | some v => .found v
  | none => .emptyCollection

/-! ## `NamedCollection` / `NamedCollectionView` (`selectors.py`)

`NamedCollection.__getitem__` with an `Expression` returns
`NamedCollectionView(self, item)`, a lazy pair of the parent collection
and the filter.  `NamedCollectionView.__iter__` with a non-`None`
functor returns a generator that yields the `(key, value)` items whose
value satisfies the functor and then executes `raise StopIteration`;
on Python ≥ 3.7, PEP 479 converts a `StopIteration` raised inside a
generator into a `RuntimeError`, so the iteration ends abnormally.
-/

/-- How an iteration ends: by normal exhaustion, or with the
`RuntimeError` that PEP 479 substitutes for a `StopIteration` raised
inside a generator body. -/
inductive IterEnd where
  | normal : IterEnd
  | runtimeError : IterEnd
  deriving DecidableEq, Repr

/-- `NamedCollection.__getitem__` with an `Expression`: builds the lazy
view (parent, functor). -/
def namedCollectionGetItemExpr (c : List (κ × α)) (e : α → Bool) :
    List (κ × α) × Option (α → Bool) :=
  (c, some e)

/-- `NamedCollectionView.__iter__`: with a functor, the generator
yields the matching `(key, value)` items and then raises
`StopIteration`, which the host turns into a `RuntimeError` (PEP 479);
with no functor it is a plain iterator over the parent's items, ending
normally. -/
def namedCollectionViewIter (parent : List (κ × α)) :
    Option (α → Bool) → List (κ × α) × IterEnd
  | some f => (parent.filter (fun p => f p.2), .runtimeError)
  | none => (parent, .normal)

/-! ## Grouped aggregation (`selectors.py`, `AggregateOperations`)

`count(group_by=...)` and `avg(func, group_by=...)` both evaluate
`attr = tuple(x(value) for x in group_by)`, skip the element when
`None in attr`, collapse a 1-tuple to its sole element, and accumulate
per-key state in a dict.
-/

/-- A grouping key: the evaluated tuple of group-by values, collapsed
to the sole value when the tuple has length 1. -/
inductive PyKey where
  | single : PyVal → PyKey
  | tup : List PyVal → PyKey
  deriving DecidableEq, Repr

/-- Collapse of `attr` in the aggregation loops: a 1-tuple becomes its
sole element, anything else stays a tuple. -/
def mkKey : List PyVal → PyKey
  | [v] => .single v
  | vs => .tup vs

/-- Evaluation of the grouping tuple at one element: `some` of the
values when every group-by expression is non-absent, `none` when
`None in attr`. -/
def evalGroup {α : Type u} (gb : List (α → Option PyVal)) (a : α) :
    Option (List PyVal) :=
  let attr := gb.map (fun f => f a)
  if attr.all Option.isSome then some attr.reduceOption else none

/-- `count()` without grouping: iterate and add one per element. -/
def pyCountPlain (sel : List α) : Nat :=
  sel.foldl (fun n _ => n + 1) 0

/-- One element's contribution to `count(group_by=...)`: skip when a
grouping value is absent, otherwise increment the key's entry or
insert it at 1. -/
def countStep {α : Type u} (gb : List (α → Option PyVal))
    (st : List (PyKey × Nat)) (a : α) : List (PyKey × Nat) :=
  match evalGroup gb a with
  | none => st
  | some vs =>
      let k := mkKey vs
      match dictFind st k with
      | some n => dictAssign st k (n + 1)
      | none => st ++ [(k, 1)]

/-- `count(group_by=...)`: fold the per-element step over the
selection starting from an empty dict. -/
def pyCountGrouped {α : Type u} (gb : List (α → Option PyVal))
    (sel : List α) : List (PyKey × Nat) :=
  sel.foldl (countStep gb) []

/-! ## `avg` with grouping (`selectors.py`, `AggregateOperations.avg`)

The grouped branch accumulates per-key state
`state[attr] = {'sum': ..., 'count': ...}` (skipping elements with an
absent grouping value) and then builds the result with

    FilterableDict({k: v['sum'] / v['count'] for k, v in state})

Iterating a dict yields its KEYS, so `k, v` is the unpacking of each
grouping key: a scalar key cannot be unpacked (TypeError, or
ValueError for a string whose length is not 2), and after a successful
unpack `v` is a grouping value, which a string cannot subscript
(TypeError).  The comprehension is modelled step by step.
-/

/-- A Python exception raised by the final comprehension of `avg`. -/
inductive PyError where
  | typeError : PyError
  | valueError : PyError
  deriving DecidableEq, Repr

/-- Python tuple unpacking `k, v = key` of a grouping key: a 2-tuple
unpacks, any other tuple arity raises ValueError; `None`, bools and
ints are not iterable (TypeError); a string unpacks into its
characters iff it has exactly two of them. -/
def unpack2 : PyKey → Except PyError (PyVal × PyVal)
  | .tup [a, b] => .ok (a, b)
  | .tup _ => .error .valueError
  | .single (.strV s) =>
      if s.length = 2 then .ok (.strV (s.take 1), .strV (s.drop 1))
      else .error .valueError
  | .single _ => .error .typeError

/-- Python `v['sum']` / `v['count']` where `v` is a scalar grouping
value: `None`, bools and ints are not subscriptable, and string
indices must be integers — a TypeError in every case. -/
def pySubscript : PyVal → String → Except PyError ℚ
  | .noneV, _ => .error .typeError
  | .boolV _, _ => .error .typeError
  | .intV _, _ => .error .typeError
  | .strV _, _ => .error .typeError

/-- One element's contribution to the grouped-`avg` state: skip when a
grouping value is absent, otherwise add `func(value)` to the group's
running sum and bump its count (inserting `{'sum': func(value),
'count': 1}` for a new key). -/
def avgStep {α : Type u} (func : α → ℚ) (gb : List (α → Option PyVal))
    (st : List (PyKey × (ℚ × Nat))) (a : α) : List (PyKey × (ℚ × Nat)) :=
  match evalGroup gb a with
  | none => st
  | some vs =>
      let k := mkKey vs
      match dictFind st k with
      | some sc => dictAssign st k (sc.1 + func a, sc.2 + 1)
      | none => st ++ [(k, (func a, 1))]

/-- The final comprehension
`{k: v['sum'] / v['count'] for k, v in state}`: iterate the state
dict's keys in insertion order, unpack each key into `k, v`, then
subscript `v`; the first exception propagates. -/
def avgFinalize (st : List (PyKey × (ℚ × Nat))) :
    Except PyError (List (PyVal × ℚ)) :=
  st.mapM (fun e => do
    let kv ← unpack2 e.1
    let s ← pySubscript kv.2 "sum"
    let c ← pySubscript kv.2 "count"
    pure (kv.1, s / c))

/-- `avg(func, group_by=...)`: accumulate the per-group sums and
counts, then run the (buggy) final comprehension. -/
def pyAvgGrouped {α : Type u} (func : α → ℚ)
    (gb : List (α → Option PyVal)) (sel : List α) :
    Except PyError (List (PyVal × ℚ)) :=
  avgFinalize (sel.foldl (avgStep func gb) [])

/-! ## The node tree (`common.py`)

A `Block`/`Component` node, reduced to what the traversal and height
claims need: an identifier and the ordered `children()` list.
-/

/-- A node of the project forest: an id and its `children()`. -/
inductive PNode where
  | mk : Nat → List PNode → PNode

/-- The node's identifier. -/
def PNode.id : PNode → Nat
  | .mk i _ => i

/-- The node's `children()` list. -/
def PNode.children : PNode → List PNode
  | .mk _ cs => cs

mutual

def pnodeDecEq : (a b : PNode) → Decidable (a = b)
  | .mk i cs, .mk j ds =>
    match Nat.decEq i j with
    | isFalse h => isFalse (by intro he; cases he; exact h rfl)
    | isTrue h1 =>
      match pnodeListDecEq cs ds with
      | isFalse h => isFalse (by intro he; cases he; exact h rfl)
      | isTrue h2 => isTrue (by rw [h1, h2])

def pnodeListDecEq : (l m : List PNode) → Decidable (l = m)
  | [], [] => isTrue rfl
  | [], _ :: _ => isFalse (by intro he; cases he)
  | _ :: _, [] => isFalse (by intro he; cases he)
  | a :: l, b :: m =>
    match pnodeDecEq a b with
    | isFalse h => isFalse (by intro he; cases he; exact h rfl)
    | isTrue h1 =>
      match pnodeListDecEq l m with
      | isFalse h => isFalse (by intro he; cases he; exact h rfl)
      | isTrue h2 => isTrue (by rw [h1, h2])

end

instance : DecidableEq PNode := pnodeDecEq

mutual

def pnSize : PNode → Nat
  | .mk _ cs => 1 + pnSizeList cs

def pnSizeList : List PNode → Nat
  | [] => 0
  | c :: cs => pnSize c + pnSizeList cs

end

/-! ## `RecursiveIterator` (`common.py`)

    def __iter__(self):
        while len(self.stack) > 0:
            item = self.stack.pop(0)
            failed = self.test and not self.test(item)
            if self.skip and failed:
                continue
            if self.order == 'breadth':
                self.stack.extend(item.children())
            elif self.order == 'depth':
                self.stack = list(filter(lambda x: x,
                    [child if child != item else None
                     for child in item.children()])) + self.stack
            ...
            if not failed:
                yield item

The worklist loop is modelled as a recursion on the stack whose total
size decreases each iteration; the result is the list of yielded
nodes in order.
-/

/-- The two explicit traversal orders of `RecursiveIterator`. -/
inductive TravOrder where
  | breadth : TravOrder
  | depth : TravOrder
  deriving DecidableEq, Repr

/-- `not failed` for an item: with no test every item passes, otherwise
the test decides. -/
def riPass (test : Option (PNode → Bool)) (n : PNode) : Bool :=
  match test with
  | none => true
  | some t => t n

/-- The stack after expanding `item`: breadth-first appends the
children to the back of the remaining queue; depth-first prepends the
children — dropping any child identical to the popped item itself —
to the front. -/
def riNewStack (order : TravOrder) (item : PNode) (rest : List PNode) :
    List PNode :=
  match order with
  | .breadth => rest ++ item.children
  | .depth => item.children.filter (fun c => decide (c ≠ item)) ++ rest

/-- The `RecursiveIterator` loop: pop the front; with `skip` a failing
item is dropped without expansion; otherwise the stack is expanded per
the order and the item is yielded iff it passed. -/
def ri (order : TravOrder) (test : Option (PNode → Bool)) (skip : Bool) :
    List PNode → List PNode
  | [] => []
  | item :: rest =>
      if skip && ! riPass test item then ri order test skip rest
      else if ! riPass test item then
        ri order test skip (riNewStack order item rest)
      else item :: ri order test skip (riNewStack order item rest)
termination_by stack => pnSizeList stack
decreasing_by
all_goals
  have happ : ∀ l₁ l₂ : List PNode,
      pnSizeList (l₁ ++ l₂) = pnSizeList l₁ + pnSizeList l₂ := by
    intro l₁ l₂
    induction l₁ with
    | nil => simp [pnSizeList]
    | cons c cs ih =>
        have hc : (c :: cs) ++ l₂ = c :: (cs ++ l₂) := rfl
        rw [hc]
        simp only [pnSizeList]
        rw [ih]
        omega
  have hfil : ∀ (p : PNode → Bool) (l : List PNode),
      pnSizeList (l.filter p) ≤ pnSizeList l := by
    intro p l
    induction l with
    | nil => simp [List.filter_nil]
    | cons c cs ih =>
        rw [List.filter_cons]
        by_cases h : p c
        · simp only [if_pos h, pnSizeList]; omega
        · simp only [if_neg h, pnSizeList]
          rcases c with ⟨i, ds⟩
          simp only [pnSize]
          omega
  have hpos : ∀ x : PNode, 0 < pnSize x := by
    intro x; rcases x with ⟨i, cs⟩; simp only [pnSize]; omega
  have hkey : ∀ (x : PNode) (rest : List PNode) (ord : TravOrder),
      pnSizeList (riNewStack ord x rest) < pnSizeList (x :: rest) := by
    intro x rest ord
    cases ord
    · rcases x with ⟨i, cs⟩
      simp only [riNewStack, happ, pnSizeList, pnSize, PNode.children]
      omega
    · rcases x with ⟨i, cs⟩
      have hf := hfil (fun c => decide (c ≠ PNode.mk i cs)) cs
      simp only [riNewStack, happ, pnSizeList, pnSize, PNode.children]
      omega
  have hrest : ∀ (x : PNode) (rest : List PNode),
      pnSizeList rest < pnSizeList (x :: rest) := by
    intro x rest
    have := hpos x
    simp only [pnSizeList]
    omega
  first
  | exact hrest _ _
  | exact hkey _ _ _

/-- Removal of every failing node together with its whole subtree: the
forest that a pruning (`skip_failures`) traversal effectively walks. -/
def pruneForest (t : PNode → Bool) : List PNode → List PNode
  | [] => []
  | n :: ns =>
      if t n then PNode.mk n.id (pruneForest t n.children) :: pruneForest t ns
      else pruneForest t ns
termination_by l => pnSizeList l
decreasing_by
all_goals
  have h1 : ∀ (x : PNode) (l : List PNode),
      pnSizeList x.children < pnSizeList (x :: l) := by
    intro x l
    rcases x with ⟨i, cs⟩
    simp only [PNode.children, pnSizeList, pnSize]
    omega
  have h2 : ∀ (x : PNode) (l : List PNode),
      pnSizeList l < pnSizeList (x :: l) := by
    intro x l
    rcases x with ⟨i, cs⟩
    simp only [pnSizeList, pnSize]
    omega
  first
  | exact h1 _ _
  | exact h2 _ _

/-! ## `HeightAttribute` (`attributes.py`)

    def __call__(self, *args, **kwargs):
        block_or_component = args[0]
        if block_or_component in self.precomputed:
            return self.precomputed[block_or_component]
        else:
            try:
                height = max(self(x) for x in block_or_component.children()) + 1
            except ValueError:
                height = 0
            self.precomputed[block_or_component] = height
            return height

The mutable per-instance cache `precomputed` is threaded explicitly.
`specHeight` is the pure height recurrence stated by the specification,
against which the memoized source computation is compared.
-/

mutual

/-- The specification's height recurrence: 0 for a node without
children, otherwise one more than the maximum child height. -/
def specHeight : PNode → Nat
  | .mk _ cs => if cs.isEmpty then 0 else 1 + specHeightMax cs

/-- Maximum of `specHeight` over a list of nodes (0 for the empty
list). -/
def specHeightMax : List PNode → Nat
  | [] => 0
  | c :: cs => Nat.max (specHeight c) (specHeightMax cs)

end

mutual

/-- `HeightAttribute.__call__` with its `precomputed` cache threaded
explicitly: a cache hit returns the stored value; a miss computes
`max(child heights) + 1` (0 when the `max` of no children raises
ValueError), stores it, and returns it. -/
def heightMemo (memo : List (PNode × Nat)) (n : PNode) :
    Nat × List (PNode × Nat) :=
  match dictFind memo n with
  | some v => (v, memo)
  | none =>
      match hch : n.children with
      | [] => (0, dictAssign memo n 0)
      | c :: cs =>
          let r := heightMemoList memo (c :: cs)
          let h := r.1.foldl Nat.max 0 + 1
          (h, dictAssign r.2 n h)
termination_by (pnSize n, 0)
decreasing_by
  apply Prod.Lex.left
  rcases n with ⟨i, ds⟩
  simp only [PNode.children] at hch
  subst hch
  simp only [pnSize]
  omega

/-- The recursive calls `self(x) for x in children`, consumed left to
right with the cache threaded through. -/
def heightMemoList (memo : List (PNode × Nat)) :
    (l : List PNode) → List Nat × List (PNode × Nat)
  | [] => ([], memo)
  | c :: cs =>
      let r := heightMemo memo c
      let rr := heightMemoList r.2 cs
      (r.1 :: rr.1, rr.2)
termination_by l => (pnSizeList l, l.length)
decreasing_by
· rcases hz : pnSizeList cs with _ | m
  · have hsz : pnSizeList (c :: cs) = pnSize c := by
      simp only [pnSizeList]; omega
    rw [hsz]
    apply Prod.Lex.right
    simp
  · apply Prod.Lex.left
    simp only [pnSizeList]
    omega
· apply Prod.Lex.left
  have hpos : 0 < pnSize c := by
    rcases c with ⟨j, ds⟩; simp only [pnSize]; omega
  simp only [pnSizeList]
  omega

end

/-- A height cache is consistent when every stored entry equals the
pure height of its node. -/
def MemoOK (memo : List (PNode × Nat)) : Prop :=
  ∀ p ∈ memo, p.2 = specHeight p.1

end Aiatools

namespace Aiatools

/-- C3 counterexample: the claim that the right operand is not evaluated
when the left operand already decides the result is false.  In the
concrete and-expression `False & f` evaluated at operand `0`, the left
operand is falsy (it alone decides the result, and is returned raw),
yet the right operand's label `7` appears in the evaluation trace: the
right operand was invoked. -/
theorem andExpression_evaluates_right_when_left_decides :
    truthy (evalB (.rawVal (.boolV false)) (.intV 0)).1 = false ∧
    (evalB (.andE (.rawVal (.boolV false)) (.fnAttr 7 (fun v => v)))
      (.intV 0)).1 = .boolV false ∧
    (evalB (.andE (.rawVal (.boolV false)) (.fnAttr 7 (fun v => v)))
      (.intV 0)).2 = [7] := by
  refine ⟨rfl, ?_, ?_⟩ <;> simp [evalB, pyAnd, truthy]

/-- C3 (amended): an And-expression (and Or-expression) evaluates BOTH
operands — the right operand is always evaluated, even when the left
operand decides the result — and the returned value is the host
language's `and`/`or` of the two already-computed values: the left
operand's raw value when it decides (falsy for `and`, truthy for `or`),
otherwise the right operand's raw value, never coerced to boolean. -/
theorem andOr_eval_both_operands_return_raw (l r : BExpr) (x : PyVal) :
    (evalB (.andE l r) x).1 =
      (if truthy (evalB l x).1 then (evalB r x).1 else (evalB l x).1) ∧
    (evalB (.andE l r) x).2 = (evalB l x).2 ++ (evalB r x).2 ∧
    (evalB (.orE l r) x).1 =
      (if truthy (evalB l x).1 then (evalB l x).1 else (evalB r x).1) ∧
    (evalB (.orE l r) x).2 = (evalB l x).2 ++ (evalB r x).2 := by
  refine ⟨?_, rfl, ?_, rfl⟩ <;> simp [evalB, pyAnd, pyOr]

/-- C4 counterexample: the claim that applying a `FunctionComposition`
to a deferred operand leaves every already-constructed expression
object unchanged is false.  The concrete composition built from the
single stage `fnS 0` has functors `[fnS 0, idS]`; after applying it to
the deferred operand `fnS 1`, the same object's functors list is
`[fnS 1, fnS 0, idS]` — the object was mutated in place. -/
theorem functionComposition_mutates_on_deferred :
    (fcInit [.fnS 0]).functors = [.fnS 0, .idS] ∧
    (fcCall (fun _ v => v) (fcInit [.fnS 0]) (.deferred (.fnS 1))).1 ≠
      fcInit [.fnS 0] := by
  constructor
  · rfl
  · decide

/-- C4 (amended): combinators wrap operands without mutating them, and
evaluation leaves every expression object unchanged, with one
exception: applying a `FunctionComposition` to a deferred operand
mutates the object in place, prepending the new stage to its
`functors` pipeline, and returns that same (now modified) object
rather than a new one; applied to a final value it is left unchanged
and returns the value threaded through the pipeline. -/
theorem functionComposition_deferred_prepends_final_unchanged
    (interp : Nat → PyVal → PyVal) (fc : FunctionComposition)
    (s : Stage) (v : PyVal) :
    fcCall interp fc (.deferred s) = (⟨s :: fc.functors⟩, none) ∧
    fcCall interp fc (.finalVal v) =
      (fc, some (applyStages interp fc.functors v)) := by
  exact ⟨rfl, rfl⟩

/-- C7: negating a `NotExpression` built from an expression `x` returns
the original wrapped expression itself: `NotExpression.__init__` stores
an `Expression` operand unchanged and `NotExpression.__invert__`
returns the stored operand, so `~(NotExpression(x))` is `x` — structural
identity, not merely evaluation equivalence. -/
theorem invert_not_returns_wrapped (x : AlgExpr) :
    pyInvert (mkNotFromExpr x) = x := by
  simp [pyInvert, mkNotFromExpr]

/-! ### Dict lemmas shared by the selector proofs -/

theorem containsKey_eq_false_iff [DecidableEq κ] (d : List (κ × α)) (k : κ) :
    containsKey d k = false ↔ ∀ p ∈ d, p.1 ≠ k := by
  simp [containsKey]

theorem dictFind_eq_none_iff [DecidableEq κ] (d : List (κ × α)) (k : κ) :
    dictFind d k = none ↔ ∀ p ∈ d, p.1 ≠ k := by
  induction d with
  | nil => simp [dictFind]
  | cons p rest ih =>
      by_cases h : p.1 = k
      · simp [dictFind, h]
      · simp [dictFind, h, ih]

theorem containsKey_of_dictFind_some [DecidableEq κ] {d : List (κ × α)}
    {k : κ} {v : α} (h : dictFind d k = some v) : containsKey d k = true := by
  by_contra hc
  rw [Bool.not_eq_true] at hc
  rw [containsKey_eq_false_iff] at hc
  rw [← dictFind_eq_none_iff] at hc
  rw [h] at hc
  exact Option.noConfusion hc

theorem dictAssign_of_not_contains [DecidableEq κ] {d : List (κ × α)}
    {k : κ} (v : α) (h : containsKey d k = false) :
    dictAssign d k v = d ++ [(k, v)] := by
  simp [dictAssign, h]

theorem map_update_of_forall_ne [DecidableEq κ] {d : List (κ × α)} {k : κ}
    (v : α) (h : ∀ p ∈ d, p.1 ≠ k) :
    d.map (fun p => if p.1 = k then (p.1, v) else p) = d := by
  induction d with
  | nil => rfl
  | cons q rest ih =>
      have hq : q.1 ≠ k := h q (List.mem_cons_self q rest)
      simp only [List.map_cons, if_neg hq]
      rw [ih (fun p hp => h p (List.mem_cons_of_mem q hp))]

theorem dictAssign_fst [DecidableEq κ] (d : List (κ × α)) (k : κ) (v : α)
    (h : containsKey d k = true) :
    (dictAssign d k v).map Prod.fst = d.map Prod.fst := by
  simp only [dictAssign, h, if_pos, List.map_map]
  apply List.map_congr_left
  intro p _
  by_cases hp : p.1 = k <;> simp [hp]

theorem dictAssign_pred [DecidableEq κ] {d : List (κ × α)} {k : κ} {v : α}
    (P : κ × α → Prop) (hd : ∀ p ∈ d, P p) (hkv : P (k, v)) :
    ∀ p ∈ dictAssign d k v, P p := by
  intro p hp
  unfold dictAssign at hp
  by_cases hc : containsKey d k
  · rw [if_pos hc] at hp
    obtain ⟨q, hq, hpq⟩ := List.mem_map.mp hp
    by_cases hqk : q.1 = k
    · rw [if_pos hqk] at hpq
      subst hpq
      rw [hqk]
      exact hkv
    · rw [if_neg hqk] at hpq
      subst hpq
      exact hd q hq
  · rw [if_neg hc] at hp
    rcases List.mem_append.mp hp with h | h
    · exact hd p h
    · rw [List.mem_singleton.mp h]
      exact hkv

theorem dictAssign_nodup [DecidableEq κ] {d : List (κ × α)} {k : κ} (v : α)
    (h : (d.map Prod.fst).Nodup) :
    ((dictAssign d k v).map Prod.fst).Nodup := by
  by_cases hc : containsKey d k
  · rw [dictAssign_fst d k v hc]
    exact h
  · rw [Bool.not_eq_true] at hc
    rw [dictAssign_of_not_contains v hc]
    rw [containsKey_eq_false_iff] at hc
    simp only [List.map_append, List.map_cons, List.map_nil, List.nodup_append]
    refine ⟨h, List.nodup_singleton k, ?_⟩
    intro x hx hk
    rw [List.mem_singleton.mp hk] at hx
    obtain ⟨p, hp, hpk⟩ := List.mem_map.mp hx
    exact hc p hp hpk

theorem dictAssign_snd_sum [DecidableEq κ] {d : List (κ × Nat)} {k : κ}
    {n : Nat} (hnd : (d.map Prod.fst).Nodup) (hf : dictFind d k = some n) :
    ((dictAssign d k (n + 1)).map Prod.snd).sum =
      (d.map Prod.snd).sum + 1 := by
  induction d with
  | nil => exact Option.noConfusion hf
  | cons p rest ih =>
      have hc : containsKey (p :: rest) k = true :=
        containsKey_of_dictFind_some hf
      by_cases hpk : p.1 = k
      · have hn : p.2 = n := by
          have := hf
          simp only [dictFind, if_pos hpk] at this
          exact Option.some.inj this
        have hrest : ∀ q ∈ rest, q.1 ≠ k := by
          intro q hq hqk
          simp only [List.map_cons, List.nodup_cons] at hnd
          apply hnd.1
          rw [hpk, ← hqk]
          exact List.mem_map.mpr ⟨q, hq, rfl⟩
        simp only [dictAssign, hc, if_pos, List.map_cons, if_pos hpk]
        rw [map_update_of_forall_ne (n + 1) hrest]
        simp [hn, Nat.add_assoc, Nat.add_comm 1]
      · have hfr : dictFind rest k = some n := by
          have := hf
          simp only [dictFind, if_neg hpk] at this
          exact this
        have hndr : (rest.map Prod.fst).Nodup := by
          simp only [List.map_cons, List.nodup_cons] at hnd
          exact hnd.2
        have hcr : containsKey rest k = true :=
          containsKey_of_dictFind_some hfr
        have := ih hndr hfr
        simp only [dictAssign, hc, if_pos, List.map_cons, if_neg hpk] at *
        simp only [dictAssign, hcr, if_pos] at this
        simp only [List.sum_cons]
        omega

/-! ### Selector call lemmas (C8) -/

theorem selectorCall_inv [DecidableEq κ] (getId : α → κ) (f : α → Bool)
    (c : List (κ × α)) :
    ∀ acc : List (κ × α),
      (∀ p ∈ acc, p.1 = getId p.2 ∧ f p.2 = true) →
      ((acc.map Prod.fst).Nodup) →
      (∀ p ∈ c.foldl
          (fun acc p => if f p.2 then dictAssign acc (getId p.2) p.2 else acc)
          acc,
        p.1 = getId p.2 ∧ f p.2 = true) ∧
      (((c.foldl
          (fun acc p => if f p.2 then dictAssign acc (getId p.2) p.2 else acc)
          acc).map Prod.fst).Nodup) := by
  induction c with
  | nil => intro acc h1 h2; exact ⟨h1, h2⟩
  | cons q rest ih =>
      intro acc h1 h2
      simp only [List.foldl_cons]
      by_cases hq : f q.2
      · rw [if_pos hq]
        refine ih (dictAssign acc (getId q.2) q.2) ?_ ?_
        · exact dictAssign_pred _ h1 ⟨rfl, hq⟩
        · exact dictAssign_nodup q.2 h2
      · rw [if_neg hq]
        exact ih acc h1 h2

theorem selectorCall_foldl_id [DecidableEq κ] (getId : α → κ) (f : α → Bool)
    (s : List (κ × α)) :
    ∀ acc : List (κ × α),
      (∀ p ∈ s, p.1 = getId p.2 ∧ f p.2 = true) →
      ((acc.map Prod.fst ++ s.map Prod.fst).Nodup) →
      s.foldl
        (fun acc p => if f p.2 then dictAssign acc (getId p.2) p.2 else acc)
        acc = acc ++ s := by
  induction s with
  | nil => intro acc _ _; simp
  | cons p rest ih =>
      intro acc hs hnd
      obtain ⟨hid, hf⟩ := hs p (List.mem_cons_self p rest)
      simp only [List.foldl_cons, if_pos hf]
      have hnk : containsKey acc p.1 = false := by
        rw [containsKey_eq_false_iff]
        intro q hq hqk
        simp only [List.map_cons, List.nodup_append] at hnd
        have hmem : q.1 ∈ acc.map Prod.fst := List.mem_map.mpr ⟨q, hq, rfl⟩
        apply hnd.2.2 hmem
        rw [hqk]
        exact List.mem_cons_self _ _
      rw [← hid, dictAssign_of_not_contains p.2 hnk]
      have heta : (p.1, p.2) = p := rfl
      rw [heta]
      rw [ih (acc ++ [p]) (fun q hq => hs q (List.mem_cons_of_mem p hq)) ?_]
      · simp
      · simp only [List.map_append, List.map_cons, List.map_nil] at hnd ⊢
        rw [List.append_assoc]
        simpa using hnd

/-- C8: selector filtering is idempotent.  `Selector.__call__(expr)`
rebuilds a dict keyed by each accepted item's `id`; running the same
(pure) filter again over the result reproduces it exactly, so
`s(expr)(expr)` contains exactly the same entries as `s(expr)`. -/
theorem selector_filter_idempotent [DecidableEq κ] (getId : α → κ)
    (c : List (κ × α)) (f : α → Bool) :
    selectorCall getId (selectorCall getId c f) f = selectorCall getId c f := by
  obtain ⟨hpred, hnd⟩ :=
    selectorCall_inv getId f c [] (by intro p hp; cases hp) (by simp)
  unfold selectorCall
  rw [selectorCall_foldl_id getId f _ [] hpred (by simpa using hnd)]
  simp [selectorCall]

/-! ### Count lemmas (C5) -/

theorem foldl_count_eq_length (sel : List α) :
    ∀ i : Nat, sel.foldl (fun n _ => n + 1) i = i + sel.length := by
  induction sel with
  | nil => intro i; simp
  | cons a rest ih => intro i; simp [ih]; omega

theorem evalGroup_eq_none_iff {α : Type u} (gb : List (α → Option PyVal))
    (a : α) :
    evalGroup gb a = none ↔
      ¬ ((gb.map (fun f => f a)).all Option.isSome = true) := by
  unfold evalGroup
  by_cases h : (gb.map (fun f => f a)).all Option.isSome
  · simp [h]
  · simp [h]

theorem countGrouped_sum_aux {α : Type u} (gb : List (α → Option PyVal))
    (sel : List α) :
    ∀ st : List (PyKey × Nat),
      ((st.map Prod.fst).Nodup) →
      (((sel.foldl (countStep gb) st).map Prod.snd).sum =
        (st.map Prod.snd).sum +
          (sel.filter
            (fun a => (gb.map (fun f => f a)).all Option.isSome)).length) ∧
      (((sel.foldl (countStep gb) st).map Prod.fst).Nodup) := by
  induction sel with
  | nil => intro st hnd; simp [hnd]
  | cons a rest ih =>
      intro st hnd
      simp only [List.foldl_cons]
      by_cases hg : (gb.map (fun f => f a)).all Option.isSome
      · have hsome : ∃ vs, evalGroup gb a = some vs := by
          unfold evalGroup
          exact ⟨_, by rw [if_pos hg]⟩
        obtain ⟨vs, hvs⟩ := hsome
        simp only [countStep, hvs]
        rcases hfind : dictFind st (mkKey vs) with _ | n
        · have hnc : containsKey st (mkKey vs) = false := by
            rw [containsKey_eq_false_iff, ← dictFind_eq_none_iff]
            exact hfind
          have hnd2 : (((st ++ [(mkKey vs, 1)]).map Prod.fst).Nodup) := by
            have := dictAssign_nodup (d := st) (k := mkKey vs) 1 hnd
            rwa [dictAssign_of_not_contains 1 hnc] at this
          obtain ⟨ihs, ihn⟩ := ih (st ++ [(mkKey vs, 1)]) hnd2
          refine ⟨?_, ihn⟩
          rw [ihs]
          simp [List.filter_cons, hg]
          ring
        · have hnd2 := dictAssign_nodup (d := st) (k := mkKey vs) (n + 1) hnd
          obtain ⟨ihs, ihn⟩ := ih (dictAssign st (mkKey vs) (n + 1)) hnd2
          refine ⟨?_, ihn⟩
          rw [ihs, dictAssign_snd_sum hnd hfind]
          simp [List.filter_cons, hg]
          ring
      · have hnone : evalGroup gb a = none := by
          unfold evalGroup
          rw [if_neg hg]
        simp only [countStep, hnone]
        obtain ⟨ihs, ihn⟩ := ih st hnd
        refine ⟨?_, ihn⟩
        rw [ihs]
        simp [List.filter_cons, hg]

/-- C5: `count()` without grouping equals the length of the list
obtained by iterating the selection, and for every grouping tuple the
sum of the per-group counts of `count(group_by=...)` equals the number
of elements for which every grouping expression evaluates non-absent. -/
theorem count_length_and_grouped_sum {α : Type u} (sel : List α)
    (gb : List (α → Option PyVal)) :
    pyCountPlain sel = sel.length ∧
    ((pyCountGrouped gb sel).map Prod.snd).sum =
      (sel.filter
        (fun a => (gb.map (fun f => f a)).all Option.isSome)).length := by
  constructor
  · unfold pyCountPlain
    rw [foldl_count_eq_length sel 0]
    omega
  · have := (countGrouped_sum_aux gb sel [] (by simp)).1
    simpa [pyCountGrouped] using this

/-- C2: a filtered `NamedCollectionView` yields exactly the
`(key, value)` entries whose value satisfies the expression, but the
iteration does NOT terminate normally: the generator's trailing
`raise StopIteration` is converted by PEP 479 (Python ≥ 3.7) into a
`RuntimeError` after the last matching entry. -/
theorem namedCollectionView_iter_filters_but_raises (c : List (κ × α))
    (e : α → Bool) :
    (namedCollectionViewIter (namedCollectionGetItemExpr c e).1
        (namedCollectionGetItemExpr c e).2).1 =
      c.filter (fun p => e p.2) ∧
    (namedCollectionViewIter (namedCollectionGetItemExpr c e).1
        (namedCollectionGetItemExpr c e).2).2 = .runtimeError := by
  exact ⟨rfl, rfl⟩

/-! ### Selector indexing lemmas (C10) -/

theorem walkValues_eq_none (l : List α) :
    ∀ i : Int, i < 0 ∨ (l.length : Int) ≤ i → walkValues l i = none := by
  induction l with
  | nil => intro i _; rfl
  | cons v vs ih =>
      intro i hi
      have hne : ¬ (i = 0) := by
        rcases hi with h | h
        · omega
        · simp only [List.length_cons] at h
          omega
      simp only [walkValues, if_neg hne]
      apply ih
      rcases hi with h | h
      · left; omega
      · right
        simp only [List.length_cons] at h
        omega

/-- C10: `Selector.__getitem__` with a key that is not present returns
an empty collection instead of raising (`KeyError` is caught), while an
integer index whose normalised value lies outside `[0, len)` raises an
`IndexError`. -/
theorem selector_getitem_missing_key_and_bad_index [DecidableEq κ]
    (c : List (κ × α)) (k : κ) (i : Int)
    (hk : dictFind c k = none)
    (hi : (if i ≥ 0 then i else i + c.length) < 0 ∨
          (c.length : Int) ≤ (if i ≥ 0 then i else i + c.length)) :
    selectorGetKey c k = GetResult.emptyCollection ∧
    selectorGetInt c i = GetResult.indexError i := by
  constructor
  · unfold selectorGetKey
    rw [hk]
  · unfold selectorGetInt
    rw [walkValues_eq_none (c.map Prod.snd)
      (if i ≥ 0 then i else i + c.length) (by simpa using hi)]

/-- C10 witness: the concrete single-entry selector `{0 ↦ 7}` returns
the empty collection for the missing key `5` and an `IndexError` for
the out-of-range index `3`. -/
theorem selector_getitem_missing_key_and_bad_index_witness :
    selectorGetKey [((0 : Nat), (7 : Nat))] 5 = GetResult.emptyCollection ∧
    selectorGetInt [((0 : Nat), (7 : Nat))] 3 = GetResult.indexError 3 :=
  selector_getitem_missing_key_and_bad_index [((0 : Nat), (7 : Nat))] 5 3
    (by decide) (by right; decide)

/-- C1: grouped `avg` crashes instead of returning the mapping of
means.  For the one-element selection `[5]` with `func = const 1` and
the single grouping expression `n ↦ 5`, the accumulated state is the
dict `{5: {'sum': 1, 'count': 1}}`, and the final comprehension
`{k: v['sum'] / v['count'] for k, v in state}` iterates the dict's
KEYS, so it tries to unpack the integer key `5` — a TypeError — rather
than producing `{5: 1.0}` as the docstring and the claim state. -/
theorem avg_groupby_raises :
    pyAvgGrouped (fun _ => (1 : ℚ)) [fun n : Int => some (.intV n)]
      [(5 : Int)] = Except.error PyError.typeError := by
  rfl

/-! ### Node size lemmas -/

theorem pnSize_pos (n : PNode) : 0 < pnSize n := by
  rcases n with ⟨i, cs⟩
  simp only [pnSize]
  omega

theorem pnSizeList_cons (c : PNode) (cs : List PNode) :
    pnSizeList (c :: cs) = pnSize c + pnSizeList cs := by
  simp [pnSizeList]

theorem pnSizeList_append (l₁ l₂ : List PNode) :
    pnSizeList (l₁ ++ l₂) = pnSizeList l₁ + pnSizeList l₂ := by
  induction l₁ with
  | nil => simp [pnSizeList]
  | cons c cs ih =>
      have hc : (c :: cs) ++ l₂ = c :: (cs ++ l₂) := rfl
      rw [hc, pnSizeList_cons, pnSizeList_cons, ih]
      omega

theorem pnSize_le_of_mem {c : PNode} {l : List PNode} (h : c ∈ l) :
    pnSize c ≤ pnSizeList l := by
  induction l with
  | nil => cases h
  | cons d ds ih =>
      rcases List.mem_cons.mp h with h | h
      · rw [h, pnSizeList_cons]; omega
      · rw [pnSizeList_cons]
        have := ih h
        omega

theorem child_ne {n c : PNode} (h : c ∈ n.children) : c ≠ n := by
  intro he
  rcases n with ⟨i, cs⟩
  have h1 : pnSize c ≤ pnSizeList cs := pnSize_le_of_mem h
  have h2 : pnSize (PNode.mk i cs) = 1 + pnSizeList cs := by simp [pnSize]
  rw [he, h2] at h1
  omega

theorem filter_children_eq (n : PNode) :
    n.children.filter (fun c => decide (c ≠ n)) = n.children := by
  apply List.filter_eq_self.mpr
  intro c hc
  exact decide_eq_true (child_ne hc)

/-! ### `RecursiveIterator` step and traversal lemmas (C6) -/

theorem riNewStack_breadth (x : PNode) (rest : List PNode) :
    riNewStack .breadth x rest = rest ++ x.children := rfl

theorem riNewStack_depth (x : PNode) (rest : List PNode) :
    riNewStack .depth x rest = x.children ++ rest := by
  simp only [riNewStack]
  rw [filter_children_eq]

theorem riNewStack_size_lt (ord : TravOrder) (x : PNode)
    (rest : List PNode) :
    pnSizeList (riNewStack ord x rest) < pnSizeList (x :: rest) := by
  have hx : pnSize x = 1 + pnSizeList x.children := by
    rcases x with ⟨i, cs⟩; simp [pnSize, PNode.children]
  cases ord
  · rw [riNewStack_breadth, pnSizeList_append, pnSizeList_cons]
    omega
  · rw [riNewStack_depth, pnSizeList_append, pnSizeList_cons]
    omega

theorem ri_nil (order : TravOrder) (test : Option (PNode → Bool))
    (skip : Bool) : ri order test skip [] = [] := by
  simp [ri]

theorem ri_cons_skip (order : TravOrder) (test : Option (PNode → Bool))
    (x : PNode) (rest : List PNode) (hfail : riPass test x = false) :
    ri order test true (x :: rest) = ri order test true rest := by
  rw [ri]
  simp [hfail]

theorem ri_cons_fail (order : TravOrder) (test : Option (PNode → Bool))
    (x : PNode) (rest : List PNode) (hfail : riPass test x = false) :
    ri order test false (x :: rest) =
      ri order test false (riNewStack order x rest) := by
  rw [ri]
  simp [hfail]

theorem ri_cons_pass (order : TravOrder) (test : Option (PNode → Bool))
    (skip : Bool) (x : PNode) (rest : List PNode)
    (hpass : riPass test x = true) :
    ri order test skip (x :: rest) =
      x :: ri order test skip (riNewStack order x rest) := by
  rw [ri]
  simp [hpass]

theorem pruneForest_nil (t : PNode → Bool) : pruneForest t [] = [] := by
  simp [pruneForest]

theorem pruneForest_cons (t : PNode → Bool) (n : PNode) (ns : List PNode) :
    pruneForest t (n :: ns) =
      if t n then
        PNode.mk n.id (pruneForest t n.children) :: pruneForest t ns
      else pruneForest t ns := by
  rw [pruneForest]

theorem pruneForest_append (t : PNode → Bool) (l₁ l₂ : List PNode) :
    pruneForest t (l₁ ++ l₂) = pruneForest t l₁ ++ pruneForest t l₂ := by
  induction l₁ with
  | nil => simp [pruneForest_nil]
  | cons n ns ih =>
      have hc : (n :: ns) ++ l₂ = n :: (ns ++ l₂) := rfl
      rw [hc, pruneForest_cons, pruneForest_cons]
      by_cases h : t n
      · simp [h, ih]
      · simp [h, ih]

theorem ri_prune_aux (order : TravOrder) (t : PNode → Bool) :
    ∀ N : Nat, ∀ stack : List PNode, pnSizeList stack ≤ N →
      (ri order (some t) true stack).map PNode.id =
        (ri order none false (pruneForest t stack)).map PNode.id := by
  intro N
  induction N with
  | zero =>
      intro stack hsz
      cases stack with
      | nil => simp [ri_nil, pruneForest_nil]
      | cons x rest =>
          exfalso
          have := pnSize_pos x
          rw [pnSizeList_cons] at hsz
          omega
  | succ N ihN =>
      intro stack hsz
      cases stack with
      | nil => simp [ri_nil, pruneForest_nil]
      | cons x rest =>
          have hlt := riNewStack_size_lt order x rest
          by_cases ht : t x
          · have hpass : riPass (some t) x = true := by simp [riPass, ht]
            rw [ri_cons_pass order (some t) true x rest hpass]
            rw [pruneForest_cons, if_pos ht]
            rw [ri_cons_pass order none false _ _ rfl]
            have hcomm : riNewStack order
                (PNode.mk x.id (pruneForest t x.children))
                (pruneForest t rest) =
                pruneForest t (riNewStack order x rest) := by
              cases order
              · rw [riNewStack_breadth, riNewStack_breadth,
                  pruneForest_append]
                simp [PNode.children]
              · rw [riNewStack_depth, riNewStack_depth, pruneForest_append]
                simp [PNode.children]
            rw [hcomm]
            have hszN : pnSizeList (riNewStack order x rest) ≤ N := by
              rw [pnSizeList_cons] at hsz hlt
              omega
            have htail := ihN _ hszN
            simp only [List.map_cons, PNode.id, htail]
          · have hfail : riPass (some t) x = false := by simp [riPass, ht]
            rw [ri_cons_skip order (some t) x rest hfail]
            rw [pruneForest_cons, if_neg ht]
            apply ihN
            rw [pnSizeList_cons] at hsz
            have := pnSize_pos x
            omega

theorem ri_filter_aux (order : TravOrder) (t : PNode → Bool) :
    ∀ N : Nat, ∀ stack : List PNode, pnSizeList stack ≤ N →
      ri order (some t) false stack =
        (ri order none false stack).filter t := by
  intro N
  induction N with
  | zero =>
      intro stack hsz
      cases stack with
      | nil => simp [ri_nil]
      | cons x rest =>
          exfalso
          have := pnSize_pos x
          rw [pnSizeList_cons] at hsz
          omega
  | succ N ihN =>
      intro stack hsz
      cases stack with
      | nil => simp [ri_nil]
      | cons x rest =>
          have hlt := riNewStack_size_lt order x rest
          have hsz2 : pnSizeList (riNewStack order x rest) ≤ N := by
            rw [pnSizeList_cons] at hsz hlt
            omega
          rw [ri_cons_pass order none false x rest rfl]
          rw [List.filter_cons]
          by_cases ht : t x
          · have hpass : riPass (some t) x = true := by simp [riPass, ht]
            rw [ri_cons_pass order (some t) false x rest hpass]
            rw [if_pos ht, ihN _ hsz2]
          · have hfail : riPass (some t) x = false := by simp [riPass, ht]
            rw [ri_cons_fail order (some t) x rest hfail]
            rw [if_neg ht, ihN _ hsz2]

/-- C6: the `RecursiveIterator` worklist semantics.  For a passing
front item, breadth-first pops the front and appends its children to
the back, while depth-first pops the front and prepends its children
(the defensive exclusion of a child identical to the popped node never
fires on a tree) to the front.  With a test and `skip_failures` true,
the traversal visits exactly the pruned forest in which every failing
node's entire subtree has been removed; with `skip_failures` false, it
traverses every node and merely omits the failing ones from the
yielded result. -/
theorem recursiveIterator_semantics (test : Option (PNode → Bool))
    (skip : Bool) (x : PNode) (rest stack : List PNode)
    (t : PNode → Bool) (order : TravOrder)
    (hpass : riPass test x = true) :
    ri .breadth test skip (x :: rest) =
      x :: ri .breadth test skip (rest ++ x.children) ∧
    ri .depth test skip (x :: rest) =
      x :: ri .depth test skip (x.children ++ rest) ∧
    (ri order (some t) true stack).map PNode.id =
      (ri order none false (pruneForest t stack)).map PNode.id ∧
    ri order (some t) false stack = (ri order none false stack).filter t := by
  refine ⟨?_, ?_, ?_, ?_⟩
  · rw [ri_cons_pass .breadth test skip x rest hpass, riNewStack_breadth]
  · rw [ri_cons_pass .depth test skip x rest hpass, riNewStack_depth]
  · exact ri_prune_aux order t (pnSizeList stack) stack (le_refl _)
  · exact ri_filter_aux order t (pnSizeList stack) stack (le_refl _)

/-- C6 witness: the semantics theorem instantiated at the singleton
leaf `PNode.mk 1 []`, the always-true test and breadth order, with the
pass hypothesis discharged by computation. -/
theorem recursiveIterator_semantics_witness :
    ri .breadth none false (PNode.mk 1 [] :: []) =
      PNode.mk 1 [] :: ri .breadth none false ([] ++ (PNode.mk 1 []).children) ∧
    ri .depth none false (PNode.mk 1 [] :: []) =
      PNode.mk 1 [] :: ri .depth none false ((PNode.mk 1 []).children ++ []) ∧
    (ri .breadth (some (fun _ => true)) true [PNode.mk 1 []]).map PNode.id =
      (ri .breadth none false
        (pruneForest (fun _ => true) [PNode.mk 1 []])).map PNode.id ∧
    ri .breadth (some (fun _ => true)) false [PNode.mk 1 []] =
      (ri .breadth none false [PNode.mk 1 []]).filter (fun _ => true) :=
  recursiveIterator_semantics none false (PNode.mk 1 []) [] [PNode.mk 1 []]
    (fun _ => true) .breadth rfl

/-! ### Height lemmas (C9) -/

theorem dictFind_some_mem [DecidableEq κ] {d : List (κ × α)} {k : κ}
    {v : α} (h : dictFind d k = some v) : (k, v) ∈ d := by
  induction d with
  | nil => exact Option.noConfusion h
  | cons p rest ih =>
      by_cases hp : p.1 = k
      · simp only [dictFind, if_pos hp] at h
        have he : (k, v) = p := by
          rw [← hp, ← Option.some.inj h]
        rw [he]
        exact List.mem_cons_self p rest
      · simp only [dictFind, if_neg hp] at h
        exact List.mem_cons_of_mem p (ih h)

theorem memoOK_assign {memo : List (PNode × Nat)} {n : PNode} {v : Nat}
    (hm : MemoOK memo) (hv : v = specHeight n) :
    MemoOK (dictAssign memo n v) := by
  intro p hp
  exact dictAssign_pred (fun q => q.2 = specHeight q.1) hm hv p hp

theorem foldl_max_from (l : List Nat) :
    ∀ a : Nat, l.foldl Nat.max a = Nat.max a (l.foldr Nat.max 0) := by
  induction l with
  | nil => intro a; simp
  | cons b t ih =>
      intro a
      simp only [List.foldl_cons, List.foldr_cons, ih (Nat.max a b)]
      exact Nat.max_assoc a b (t.foldr Nat.max 0)

theorem specHeightMax_eq_foldr (l : List PNode) :
    specHeightMax l = (l.map specHeight).foldr Nat.max 0 := by
  induction l with
  | nil => simp [specHeightMax]
  | cons c cs ih => simp [specHeightMax, ih]

theorem specHeight_of_children (n : PNode) :
    specHeight n = if n.children.isEmpty then 0
      else 1 + specHeightMax n.children := by
  rcases n with ⟨i, cs⟩
  simp [specHeight, PNode.children]

theorem heightMemo_sound : ∀ k : Nat,
    (∀ memo n, MemoOK memo → pnSize n ≤ k →
      (heightMemo memo n).1 = specHeight n ∧
      MemoOK (heightMemo memo n).2) ∧
    (∀ l : List PNode, ∀ memo, MemoOK memo → pnSizeList l ≤ k →
      (heightMemoList memo l).1 = l.map specHeight ∧
      MemoOK (heightMemoList memo l).2) := by
  intro k
  induction k using Nat.strong_induction_on with
  | _ k ih =>
  have hnode : ∀ memo n, MemoOK memo → pnSize n ≤ k →
      (heightMemo memo n).1 = specHeight n ∧
      MemoOK (heightMemo memo n).2 := by
    intro memo n hm hk
    rw [heightMemo]
    cases hfind : dictFind memo n with
    | some v =>
        simp only [hfind]
        exact ⟨hm (n, v) (dictFind_some_mem hfind), hm⟩
    | none =>
        simp only [hfind]
        cases hch : n.children with
        | nil =>
            simp only [hch]
            constructor
            · rw [specHeight_of_children, hch]
              rfl
            · exact memoOK_assign hm
                (by rw [specHeight_of_children, hch]; rfl)
        | cons c cs =>
            simp only [hch]
            have hklt : pnSizeList (c :: cs) < pnSize n := by
              rcases n with ⟨i, ds⟩
              simp only [PNode.children] at hch
              subst hch
              simp only [pnSize]
              omega
            have hkpos : 0 < k := by
              have := pnSize_pos n
              omega
            have hle : pnSizeList (c :: cs) ≤ k - 1 := by omega
            have hlt : k - 1 < k := by omega
            obtain ⟨hr1, hr2⟩ := (ih (k - 1) hlt).2 (c :: cs) memo hm hle
            have hval : (heightMemoList memo (c :: cs)).1.foldl Nat.max 0
                + 1 = specHeight n := by
              rw [hr1, foldl_max_from, specHeight_of_children, hch,
                specHeightMax_eq_foldr]
              simp only [List.isEmpty_cons, Bool.false_eq_true, if_false]
              have h0 : Nat.max 0 ((List.map specHeight (c :: cs)).foldr
                  Nat.max 0) = (List.map specHeight (c :: cs)).foldr
                  Nat.max 0 := Nat.zero_max _
              rw [h0]
              omega
            refine ⟨hval, memoOK_assign hr2 hval⟩
  refine ⟨hnode, ?_⟩
  intro l
  induction l with
  | nil =>
      intro memo hm _
      rw [heightMemoList]
      exact ⟨rfl, hm⟩
  | cons c cs ihl =>
      intro memo hm hk
      rw [heightMemoList]
      have hc1 : pnSize c ≤ k := by
        rw [pnSizeList_cons] at hk
        have := pnSize_pos c
        omega
      obtain ⟨hv, hm2⟩ := hnode memo c hm hc1
      have hcs : pnSizeList cs ≤ k := by
        rw [pnSizeList_cons] at hk
        have := pnSize_pos c
        omega
      obtain ⟨hv2, hm3⟩ := ihl (heightMemo memo c).2 hm2 hcs
      simp only [List.map_cons]
      exact ⟨by rw [hv, hv2], hm3⟩

/-- C9: the memoized `HeightAttribute` computes exactly the height
recurrence, starting from any consistent per-instance cache: the
returned value is `specHeight n`, the updated cache stays consistent
(memoization is sound), and the pure height satisfies
`specHeight n = 0` iff `children n` is empty and otherwise
`specHeight n = 1 + max (specHeight c)` over the children. -/
theorem height_memo_recurrence (memo : List (PNode × Nat)) (n : PNode)
    (hm : MemoOK memo) :
    (heightMemo memo n).1 = specHeight n ∧
    MemoOK (heightMemo memo n).2 ∧
    (specHeight n = 0 ↔ n.children = []) ∧
    (n.children ≠ [] →
      specHeight n = 1 + specHeightMax n.children) := by
  obtain ⟨h1, h2⟩ :=
    (heightMemo_sound (pnSize n)).1 memo n hm (le_refl _)
  refine ⟨h1, h2, ?_, ?_⟩
  · rw [specHeight_of_children]
    cases hch : n.children with
    | nil => simp
    | cons c cs => simp
  · intro hne
    rw [specHeight_of_children]
    cases hch : n.children with
    | nil => exact absurd hch hne
    | cons c cs => simp

/-- C9 witness: the recurrence theorem instantiated at the two-node
chain rooted at id 0, starting from the empty (vacuously consistent)
cache. -/
theorem height_memo_recurrence_witness :
    (heightMemo [] (PNode.mk 0 [PNode.mk 1 []])).1 =
      specHeight (PNode.mk 0 [PNode.mk 1 []]) ∧
    MemoOK (heightMemo [] (PNode.mk 0 [PNode.mk 1 []])).2 ∧
    (specHeight (PNode.mk 0 [PNode.mk 1 []]) = 0 ↔
      (PNode.mk 0 [PNode.mk 1 []]).children = []) ∧
    ((PNode.mk 0 [PNode.mk 1 []]).children ≠ [] →
      specHeight (PNode.mk 0 [PNode.mk 1 []]) =
        1 + specHeightMax (PNode.mk 0 [PNode.mk 1 []]).children) :=
  height_memo_recurrence [] (PNode.mk 0 [PNode.mk 1 []])
    (by simp [MemoOK])

end Aiatools
